import Mathlib

/-!
# Verification of the sorting library (`bubble_sort.py`, `merge_sort.py`)

Shallow embedding of the two sorting engines of the repository and proofs of
the specification's claims about them.

The Python code sorts lists of elements compared with the rich-comparison
operators `<`, `<=`, `>`, `>=`.  We embed the element comparisons through a
`key` function into a linear order `β`: with `key = id` this is exactly the
source code acting on plain comparable values, and with `key = Prod.snd` on
index-tagged pairs it expresses the spec's stability statements (elements that
compare equal but are distinguishable by their original index).  Every `if`
condition below is the literal comparison of the source line it embeds.

Python's bounded inner loop `for j in range(0, n - i - 1)` is embedded as a
fuel parameter: the pass walks the list and stops after `fuel` comparisons,
exactly as the range bound stops the loop after `n - i - 1` iterations.
-/

namespace SortSpec

variable {α β : Type} [LinearOrder β]

/-- One inner-loop pass of `bubble_sort` (src/bubble_sort.py, lines 42-57):
walk the list, compare each adjacent pair (at most `fuel` comparisons, the
embedding of `range(0, n - i - 1)`), swap a pair that violates the requested
order, and report whether any swap happened (`swapped`). -/
def bubblePass (key : α → β) (reverse : Bool) : Nat → List α → List α × Bool
  | _, [] => ([], false)
  | 0, l => (l, false)
  | _ + 1, [x] => ([x], false)
  | fuel + 1, x :: y :: rest =>
    if reverse then
      if key x < key y then
        let p := bubblePass key reverse fuel (x :: rest)
        (y :: p.1, true)
      else
        let p := bubblePass key reverse fuel (y :: rest)
        (x :: p.1, p.2)
    else
      if key x > key y then
        let p := bubblePass key reverse fuel (x :: rest)
        (y :: p.1, true)
      else
        let p := bubblePass key reverse fuel (y :: rest)
        (x :: p.1, p.2)

/-- The outer loop of `bubble_sort` (src/bubble_sort.py, lines 34-61):
`p` counts the remaining iterations of `for i in range(n)`, so the pass run
when `p = n - i` iterations remain gets fuel `n - i - 1 = p - 1`; the loop
stops early when a pass reports no swap. -/
def bubbleLoop (key : α → β) (reverse : Bool) : Nat → List α → List α
  | 0, l => l
  | p + 1, l =>
    let pr := bubblePass key reverse p l
    if pr.2 then bubbleLoop key reverse p pr.1 else pr.1

/-- `bubble_sort(arr, reverse)` (src/bubble_sort.py, lines 14-63): copy the
input and run `n` bounded passes with early exit. -/
def bubble_sort (key : α → β) (reverse : Bool) (arr : List α) : List α :=
  bubbleLoop key reverse arr.length arr

/-- One pass of `bubble_sort_with_steps` (src/bubble_sort.py, lines 91-111):
identical to `bubblePass` but `steps` is incremented once per inner-loop
iteration; returns (list, swapped, steps made in this pass). -/
def bubblePassS (key : α → β) (reverse : Bool) :
    Nat → List α → List α × Bool × Nat
  | _, [] => ([], false, 0)
  | 0, l => (l, false, 0)
  | _ + 1, [x] => ([x], false, 0)
  | fuel + 1, x :: y :: rest =>
    if reverse then
      if key x < key y then
        let p := bubblePassS key reverse fuel (x :: rest)
        (y :: p.1, true, p.2.2 + 1)
      else
        let p := bubblePassS key reverse fuel (y :: rest)
        (x :: p.1, p.2.1, p.2.2 + 1)
    else
      if key x > key y then
        let p := bubblePassS key reverse fuel (x :: rest)
        (y :: p.1, true, p.2.2 + 1)
      else
        let p := bubblePassS key reverse fuel (y :: rest)
        (x :: p.1, p.2.1, p.2.2 + 1)

/-- Outer loop of `bubble_sort_with_steps` (src/bubble_sort.py, lines 86-117):
like `bubbleLoop`, accumulating the running `steps` total across passes. -/
def bubbleLoopS (key : α → β) (reverse : Bool) : Nat → List α → List α × Nat
  | 0, l => (l, 0)
  | p + 1, l =>
    let pr := bubblePassS key reverse p l
    if pr.2.1 then
      let rest := bubbleLoopS key reverse p pr.1
      (rest.1, pr.2.2 + rest.2)
    else (pr.1, pr.2.2)

/-- `bubble_sort_with_steps(arr, reverse)` (src/bubble_sort.py, lines 66-122):
returns the pair (sorted list, number of steps); the `print` calls of the
source are presentation only and carry no data. -/
def bubble_sort_with_steps (key : α → β) (reverse : Bool) (arr : List α) :
    List α × Nat :=
  bubbleLoopS key reverse arr.length arr

/-- `merge(left, right, reverse)` (src/merge_sort.py, lines 15-62): two-cursor
merge; take the left head when `left[i] >= right[j]` (descending) or
`left[i] <= right[j]` (ascending), and append the surviving remainder once one
side is exhausted. -/
def merge (key : α → β) (reverse : Bool) : List α → List α → List α
  | [], right => right
  | left, [] => left
  | x :: left, y :: right =>
    if reverse then
      if key x ≥ key y then x :: merge key reverse left (y :: right)
      else y :: merge key reverse (x :: left) right
    else
      if key x ≤ key y then x :: merge key reverse left (y :: right)
      else y :: merge key reverse (x :: left) right
termination_by l r => l.length + r.length

/-- `merge_sort(arr, reverse)` (src/merge_sort.py, lines 65-96): lists of
length ≤ 1 are returned as a copy; otherwise split at `mid = len(arr) // 2`
(`left = arr[:mid]`, `right = arr[mid:]`), sort both halves recursively and
merge. -/
def merge_sort (key : α → β) (reverse : Bool) (arr : List α) : List α :=
  if arr.length ≤ 1 then arr
  else
    merge key reverse
      (merge_sort key reverse (arr.take (arr.length / 2)))
      (merge_sort key reverse (arr.drop (arr.length / 2)))
termination_by arr.length
decreasing_by
  · simp only [List.length_take]; omega
  · simp only [List.length_drop]; omega

/-- `merge_sort_with_steps(arr, reverse, depth)` (src/merge_sort.py, lines
99-146), with the `print` calls dropped: returns (sorted list, operation
count), where a merge of `ls` and `rs` charges `len(ls) + len(rs)` operations
on top of the counts of the two recursive calls. -/
def merge_sort_with_steps (key : α → β) (reverse : Bool) (arr : List α) :
    List α × Nat :=
  if arr.length ≤ 1 then (arr, 0)
  else
    let ls := merge_sort_with_steps key reverse (arr.take (arr.length / 2))
    let rs := merge_sort_with_steps key reverse (arr.drop (arr.length / 2))
    (merge key reverse ls.1 rs.1,
      ls.2 + rs.2 + (ls.1.length + rs.1.length))
termination_by arr.length
decreasing_by
  · simp only [List.length_take]; omega
  · simp only [List.length_drop]; omega

/-- The operation-count recurrence of `merge_sort_with_steps`, as a function
of the input length alone: `T(n) = T(⌊n/2⌋) + T(n − ⌊n/2⌋) + n` for `n ≥ 2`,
`T(n) = 0` otherwise. -/
def msOps : Nat → Nat
  | n =>
    if n ≤ 1 then 0
    else msOps (n / 2) + msOps (n - n / 2) + n
termination_by n => n
decreasing_by
  · omega
  · omega

/-- The ordering policy shared by both engines (spec §4.1): `x` may precede
`y`.  Ascending: `key x ≤ key y`; descending: `key x ≥ key y`. -/
def keyLE (key : α → β) (reverse : Bool) (x y : α) : Prop :=
  if reverse then key y ≤ key x else key x ≤ key y

/-- Tag each element of a list with its position, starting at `n`: the
"attach the original index" device of the spec's stability property. -/
def tag (n : Nat) : List α → List (Nat × α)
  | [] => []
  | x :: xs => (n, x) :: tag (n + 1) xs

/-! ### The ordering policy -/

theorem keyLE_false (key : α → β) (x y : α) :
    keyLE key false x y ↔ key x ≤ key y := Iff.rfl

theorem keyLE_true (key : α → β) (x y : α) :
    keyLE key true x y ↔ key y ≤ key x := Iff.rfl

theorem keyLE_total (key : α → β) (rev : Bool) (x y : α) :
    keyLE key rev x y ∨ keyLE key rev y x := by
  cases rev <;> simp only [keyLE, if_true, if_false] <;> exact le_total _ _

theorem keyLE_trans (key : α → β) (rev : Bool) {x y z : α}
    (h₁ : keyLE key rev x y) (h₂ : keyLE key rev y z) : keyLE key rev x z := by
  cases rev
  · exact le_trans (α := β) h₁ h₂
  · exact le_trans (α := β) h₂ h₁

theorem keyLE_of_not (key : α → β) (rev : Bool) {x y : α}
    (h : ¬ keyLE key rev x y) : keyLE key rev y x :=
  (keyLE_total key rev x y).resolve_left h

theorem key_ne_of_not (key : α → β) (rev : Bool) {x y : α}
    (h : ¬ keyLE key rev x y) : key x ≠ key y := by
  cases rev
  · exact fun hc => h (le_of_eq hc)
  · exact fun hc => h (le_of_eq hc.symm)

instance keyLE.instDecidable (key : α → β) (rev : Bool) (x y : α) :
    Decidable (keyLE key rev x y) := by
  unfold keyLE
  infer_instance

/-! ### Rewriting equations: the branch on `reverse` folded into `keyLE` -/

theorem bubblePass_cons₂ (key : α → β) (rev : Bool) (fuel : Nat)
    (x y : α) (rest : List α) :
    bubblePass key rev (fuel + 1) (x :: y :: rest) =
      if keyLE key rev x y then
        ((bubblePass key rev fuel (y :: rest)).1.cons x,
          (bubblePass key rev fuel (y :: rest)).2)
      else
        ((bubblePass key rev fuel (x :: rest)).1.cons y, true) := by
  cases rev
  · rcases le_or_lt (key x) (key y) with h | h
    · simp [bubblePass, keyLE, h, not_lt.mpr h]
    · simp [bubblePass, keyLE, h, not_le.mpr h]
  · rcases le_or_lt (key y) (key x) with h | h
    · simp [bubblePass, keyLE, h, not_lt.mpr h]
    · simp [bubblePass, keyLE, h, not_le.mpr h]

theorem bubblePassS_cons₂ (key : α → β) (rev : Bool) (fuel : Nat)
    (x y : α) (rest : List α) :
    bubblePassS key rev (fuel + 1) (x :: y :: rest) =
      if keyLE key rev x y then
        ((bubblePassS key rev fuel (y :: rest)).1.cons x,
          (bubblePassS key rev fuel (y :: rest)).2.1,
          (bubblePassS key rev fuel (y :: rest)).2.2 + 1)
      else
        ((bubblePassS key rev fuel (x :: rest)).1.cons y, true,
          (bubblePassS key rev fuel (x :: rest)).2.2 + 1) := by
  cases rev
  · rcases le_or_lt (key x) (key y) with h | h
    · simp [bubblePassS, keyLE, h, not_lt.mpr h]
    · simp [bubblePassS, keyLE, h, not_le.mpr h]
  · rcases le_or_lt (key y) (key x) with h | h
    · simp [bubblePassS, keyLE, h, not_lt.mpr h]
    · simp [bubblePassS, keyLE, h, not_le.mpr h]

theorem merge_nil_left (key : α → β) (rev : Bool) (r : List α) :
    merge key rev [] r = r := by
  simp [merge]

theorem merge_nil_right (key : α → β) (rev : Bool) (l : List α) :
    merge key rev l [] = l := by
  cases l <;> simp [merge]

theorem merge_cons₂ (key : α → β) (rev : Bool) (x y : α) (l r : List α) :
    merge key rev (x :: l) (y :: r) =
      if keyLE key rev x y then x :: merge key rev l (y :: r)
      else y :: merge key rev (x :: l) r := by
  cases rev
  · rcases le_or_lt (key x) (key y) with h | h
    · simp [merge, keyLE, h]
    · simp [merge, keyLE, h, not_le.mpr h]
  · rcases le_or_lt (key y) (key x) with h | h
    · simp [merge, keyLE, h]
    · simp [merge, keyLE, h, not_le.mpr h]

theorem keyLE_refl (key : α → β) (rev : Bool) (x : α) : keyLE key rev x x := by
  cases rev <;> exact le_refl (key x)

theorem keyLE_congr (key : α → β) (rev : Bool) {x y x' y' : α}
    (hx : key x = key x') (hy : key y = key y') :
    keyLE key rev x y ↔ keyLE key rev x' y' := by
  cases rev <;> simp only [keyLE, if_true, if_false, hx, hy]

/-! ### The inner pass of the exchange engine -/

/-- A pass returns a permutation of its input. -/
theorem bubblePass_perm (key : α → β) (rev : Bool) (fuel : Nat) :
    ∀ l : List α, (bubblePass key rev fuel l).1.Perm l := by
  induction fuel with
  | zero => intro l; cases l <;> simp [bubblePass]
  | succ f ih =>
    intro l
    match l with
    | [] => simp [bubblePass]
    | [x] => simp [bubblePass]
    | x :: y :: rest =>
      rw [bubblePass_cons₂]
      by_cases h : keyLE key rev x y
      · rw [if_pos h]
        exact (ih (y :: rest)).cons x
      · rw [if_neg h]
        exact ((ih (x :: rest)).cons y).trans (List.Perm.swap x y rest)

/-- A pass that reports `swapped = false` left the list unchanged and found
the first `fuel + 1` elements already in order. -/
theorem bubblePass_no_swap (key : α → β) (rev : Bool) (fuel : Nat) :
    ∀ l : List α, (bubblePass key rev fuel l).2 = false →
      (bubblePass key rev fuel l).1 = l ∧
        (l.take (fuel + 1)).Chain' (keyLE key rev) := by
  induction fuel with
  | zero =>
    intro l _
    cases l <;> simp [bubblePass, List.take]
  | succ f ih =>
    intro l hflag
    match l with
    | [] => simp [bubblePass, List.take]
    | [x] => simp [bubblePass, List.take]
    | x :: y :: rest =>
      rw [bubblePass_cons₂] at hflag ⊢
      by_cases h : keyLE key rev x y
      · rw [if_pos h] at hflag ⊢
        have := ih (y :: rest) hflag
        refine ⟨by rw [this.1], ?_⟩
        simp only [List.take]
        rw [List.chain'_cons]
        refine ⟨h, ?_⟩
        have h2 := this.2
        simpa [List.take] using h2
      · rw [if_neg h] at hflag
        simp at hflag

/-- A full-fuel pass (`fuel + 1 = length`) moves an element that dominates
the whole list into the last position. -/
theorem bubblePass_max (key : α → β) (rev : Bool) (fuel : Nat) :
    ∀ l : List α, l.length = fuel + 1 →
      ∃ l₀ m, (bubblePass key rev fuel l).1 = l₀ ++ [m] ∧
        (∀ z ∈ l, keyLE key rev z m) ∧ l₀.length = fuel := by
  induction fuel with
  | zero =>
    intro l hl
    match l, hl with
    | [x], _ =>
      refine ⟨[], x, by simp [bubblePass], ?_, rfl⟩
      intro z hz
      rw [List.mem_singleton] at hz
      rw [hz]
      exact keyLE_refl key rev x
  | succ f ih =>
    intro l hl
    match l with
    | x :: y :: rest =>
      have hlen : (y :: rest).length = f + 1 := by
        simpa using hl
      have hlen' : (x :: rest).length = f + 1 := by
        simpa using hl
      rw [bubblePass_cons₂]
      by_cases h : keyLE key rev x y
      · rw [if_pos h]
        obtain ⟨l₀, m, hpass, hmax, hl₀⟩ := ih (y :: rest) hlen
        refine ⟨x :: l₀, m, by simp [hpass], ?_, by simp [hl₀]⟩
        intro z hz
        rcases List.mem_cons.mp hz with rfl | hz'
        · exact keyLE_trans key rev h (hmax y (List.mem_cons_self y rest))
        · exact hmax z hz'
      · rw [if_neg h]
        obtain ⟨l₀, m, hpass, hmax, hl₀⟩ := ih (x :: rest) hlen'
        refine ⟨y :: l₀, m, by simp [hpass], ?_, by simp [hl₀]⟩
        intro z hz
        rcases List.mem_cons.mp hz with rfl | hz'
        · exact hmax z (List.mem_cons_self z rest)
        · rcases List.mem_cons.mp hz' with rfl | hz''
          · exact keyLE_trans key rev (keyLE_of_not key rev h)
              (hmax x (List.mem_cons_self x rest))
          · exact hmax z (List.mem_cons_of_mem x hz'')

/-- A pass with fuel `a.length - 1` rearranges the prefix `a` and leaves the
suffix `b` untouched: the embedding of the shrinking range
`range(0, n - i - 1)`. -/
theorem bubblePass_split (key : α → β) (rev : Bool) (fuel : Nat) :
    ∀ a b : List α, a.length = fuel + 1 →
      bubblePass key rev fuel (a ++ b) =
        ((bubblePass key rev fuel a).1 ++ b, (bubblePass key rev fuel a).2) := by
  induction fuel with
  | zero =>
    intro a b ha
    match a, ha with
    | [x], _ => cases b <;> simp [bubblePass]
  | succ f ih =>
    intro a b ha
    match a with
    | x :: y :: a' =>
      have h₁ : (y :: a').length = f + 1 := by simpa using ha
      have h₂ : (x :: a').length = f + 1 := by simpa using ha
      have e : (x :: y :: a') ++ b = x :: y :: (a' ++ b) := by simp
      rw [e, bubblePass_cons₂, bubblePass_cons₂]
      by_cases h : keyLE key rev x y
      · rw [if_pos h, if_pos h]
        have := ih (y :: a') b h₁
        simp only [List.cons_append] at this
        rw [this]
        simp
      · rw [if_neg h, if_neg h]
        have := ih (x :: a') b h₂
        simp only [List.cons_append] at this
        rw [this]
        simp

/-- A pass never reorders elements whose keys are equal: it preserves every
`Pairwise` relation that holds automatically between elements of distinct
keys (the stability workhorse). -/
theorem bubblePass_pairwise (key : α → β) (rev : Bool)
    (S : α → α → Prop) (hS : ∀ x y, key x ≠ key y → S x y) (fuel : Nat) :
    ∀ l : List α, l.Pairwise S → (bubblePass key rev fuel l).1.Pairwise S := by
  induction fuel with
  | zero =>
    intro l hl
    cases l
    · simp [bubblePass]
    · simpa [bubblePass] using hl
  | succ f ih =>
    intro l hl
    match l, hl with
    | [], _ => simp [bubblePass]
    | [x], _ => simp [bubblePass]
    | x :: y :: rest, hl =>
      have hx : ∀ z ∈ y :: rest, S x z := (List.pairwise_cons.mp hl).1
      have hyr : (y :: rest).Pairwise S := (List.pairwise_cons.mp hl).2
      have hy : ∀ z ∈ rest, S y z := (List.pairwise_cons.mp hyr).1
      have hrest : rest.Pairwise S := (List.pairwise_cons.mp hyr).2
      rw [bubblePass_cons₂]
      by_cases h : keyLE key rev x y
      · rw [if_pos h]
        refine List.pairwise_cons.mpr ⟨?_, ih (y :: rest) hyr⟩
        intro z hz
        exact hx z ((bubblePass_perm key rev f (y :: rest)).mem_iff.mp hz)
      · rw [if_neg h]
        have hxrest : (x :: rest).Pairwise S :=
          List.pairwise_cons.mpr
            ⟨fun z hz => hx z (List.mem_cons_of_mem y hz), hrest⟩
        refine List.pairwise_cons.mpr ⟨?_, ih (x :: rest) hxrest⟩
        intro z hz
        rcases List.mem_cons.mp
            ((bubblePass_perm key rev f (x :: rest)).mem_iff.mp hz) with
          rfl | hz'
        · exact hS y z (Ne.symm (key_ne_of_not key rev h))
        · exact hy z hz'

/-! ### The outer loop of the exchange engine -/

theorem bubbleLoop_perm (key : α → β) (rev : Bool) :
    ∀ (p : Nat) (l : List α), (bubbleLoop key rev p l).Perm l := by
  intro p
  induction p with
  | zero => intro l; simp [bubbleLoop]
  | succ p ih =>
    intro l
    simp only [bubbleLoop]
    cases hsw : (bubblePass key rev p l).2 with
    | false =>
      rw [if_neg (by simp [hsw])]
      exact bubblePass_perm key rev p l
    | true =>
      rw [if_pos (by simp [hsw])]
      exact (ih _).trans (bubblePass_perm key rev p l)

/-- Main invariant of the shrinking passes: if the suffix `b` is already in
final position (sorted, and dominating nothing in `a`), then `p = a.length`
further passes sort the whole list. -/
theorem bubbleLoop_sorted (key : α → β) (rev : Bool) :
    ∀ (p : Nat) (a b : List α), a.length = p →
      (∀ x ∈ a, ∀ y ∈ b, keyLE key rev x y) →
      b.Pairwise (keyLE key rev) →
      (bubbleLoop key rev p (a ++ b)).Pairwise (keyLE key rev) := by
  haveI : IsTrans α (keyLE key rev) := ⟨fun _ _ _ => keyLE_trans key rev⟩
  intro p
  induction p with
  | zero =>
    intro a b ha _ hb
    have : a = [] := List.length_eq_zero.mp ha
    subst this
    simpa [bubbleLoop] using hb
  | succ p ih =>
    intro a b ha hcross hb
    simp only [bubbleLoop]
    rw [bubblePass_split key rev p a b ha]
    cases hsw : (bubblePass key rev p a).2 with
    | false =>
      rw [if_neg (by simp [hsw])]
      obtain ⟨heq, hchain⟩ := bubblePass_no_swap key rev p a hsw
      have htake : a.take (p + 1) = a := by
        rw [← ha, List.take_length]
      rw [htake] at hchain
      rw [heq]
      exact List.pairwise_append.mpr
        ⟨List.chain'_iff_pairwise.mp hchain, hb, hcross⟩
    | true =>
      rw [if_pos (by simp [hsw])]
      obtain ⟨l₀, m, hp, hmax, hl₀⟩ := bubblePass_max key rev p a ha
      have hmem : ∀ z ∈ l₀ ++ [m], z ∈ a := by
        intro z hz
        exact (bubblePass_perm key rev p a).mem_iff.mp (hp ▸ hz)
      rw [hp]
      have hassoc : (l₀ ++ [m]) ++ b = l₀ ++ (m :: b) := by simp
      rw [hassoc]
      refine ih l₀ (m :: b) hl₀ ?_ ?_
      · intro x hx y hy
        rcases List.mem_cons.mp hy with rfl | hy'
        · exact hmax x (hmem x (List.mem_append_left _ hx))
        · exact hcross x (hmem x (List.mem_append_left _ hx)) y hy'
      · refine List.pairwise_cons.mpr ⟨?_, hb⟩
        intro y hy
        exact hcross m (hmem m (List.mem_append_right _ (by simp))) y hy

/-- The outer loop preserves any `Pairwise` relation that holds between
elements of distinct keys. -/
theorem bubbleLoop_pairwise (key : α → β) (rev : Bool)
    (S : α → α → Prop) (hS : ∀ x y, key x ≠ key y → S x y) :
    ∀ (p : Nat) (l : List α), l.Pairwise S →
      (bubbleLoop key rev p l).Pairwise S := by
  intro p
  induction p with
  | zero => intro l hl; simpa [bubbleLoop] using hl
  | succ p ih =>
    intro l hl
    simp only [bubbleLoop]
    cases hsw : (bubblePass key rev p l).2 with
    | false =>
      rw [if_neg (by simp [hsw])]
      exact bubblePass_pairwise key rev S hS p l hl
    | true =>
      rw [if_pos (by simp [hsw])]
      exact ih _ (bubblePass_pairwise key rev S hS p l hl)

/-! ### Step counting for the exchange engine -/

/-- The instrumented pass computes the same list and the same `swapped` flag
as the silent pass. -/
theorem bubblePassS_eq (key : α → β) (rev : Bool) :
    ∀ (fuel : Nat) (l : List α),
      (bubblePassS key rev fuel l).1 = (bubblePass key rev fuel l).1 ∧
        (bubblePassS key rev fuel l).2.1 = (bubblePass key rev fuel l).2 := by
  intro fuel
  induction fuel with
  | zero => intro l; cases l <;> simp [bubblePass, bubblePassS]
  | succ f ih =>
    intro l
    match l with
    | [] => simp [bubblePass, bubblePassS]
    | [x] => simp [bubblePass, bubblePassS]
    | x :: y :: rest =>
      rw [bubblePass_cons₂, bubblePassS_cons₂]
      by_cases h : keyLE key rev x y
      · rw [if_pos h, if_pos h]
        exact ⟨by rw [(ih (y :: rest)).1], (ih (y :: rest)).2⟩
      · rw [if_neg h, if_neg h]
        exact ⟨by rw [(ih (x :: rest)).1], rfl⟩

/-- The instrumented loop returns the same sorted list as the silent loop. -/
theorem bubbleLoopS_fst (key : α → β) (rev : Bool) :
    ∀ (p : Nat) (l : List α),
      (bubbleLoopS key rev p l).1 = bubbleLoop key rev p l := by
  intro p
  induction p with
  | zero => intro l; simp [bubbleLoop, bubbleLoopS]
  | succ p ih =>
    intro l
    simp only [bubbleLoop, bubbleLoopS]
    rw [(bubblePassS_eq key rev p l).2, (bubblePassS_eq key rev p l).1]
    cases hsw : (bubblePass key rev p l).2 with
    | false => rw [if_neg (by simp [hsw]), if_neg (by simp [hsw])]
    | true =>
      rw [if_pos (by simp [hsw]), if_pos (by simp [hsw])]
      exact ih _

/-- On a list already in order, a pass swaps nothing and counts exactly one
comparison per inner-loop iteration: `min fuel (length − 1)` of them. -/
theorem bubblePassS_sorted (key : α → β) (rev : Bool) :
    ∀ (fuel : Nat) (l : List α), l.Chain' (keyLE key rev) →
      bubblePassS key rev fuel l = (l, false, min fuel (l.length - 1)) := by
  intro fuel
  induction fuel with
  | zero => intro l _; cases l <;> simp [bubblePassS]
  | succ f ih =>
    intro l hl
    match l with
    | [] => simp [bubblePassS]
    | [x] => simp [bubblePassS]
    | x :: y :: rest =>
      have hxy : keyLE key rev x y := (List.chain'_cons.mp hl).1
      have hrest : (y :: rest).Chain' (keyLE key rev) :=
        (List.chain'_cons.mp hl).2
      rw [bubblePassS_cons₂, if_pos hxy, ih (y :: rest) hrest]
      simp only [List.length_cons, Nat.add_sub_cancel]
      refine Prod.ext rfl (Prod.ext rfl ?_)
      simp only
      omega

/-- On a list already in order, the instrumented exchange sort makes exactly
one pass of `length − 1` comparisons and stops. -/
theorem bubble_sort_with_steps_sorted (key : α → β) (rev : Bool)
    (l : List α) (h : l.Chain' (keyLE key rev)) :
    bubble_sort_with_steps key rev l = (l, l.length - 1) := by
  unfold bubble_sort_with_steps
  rcases hn : l.length with _ | p
  · simp [bubbleLoopS]
  · simp only [bubbleLoopS]
    rw [bubblePassS_sorted key rev p l h]
    simp [hn]

/-! ### The merge primitive -/

/-- `merge` places every element of both inputs exactly once: its output is a
permutation of `left ++ right`, for arbitrary (not necessarily sorted)
inputs. -/
theorem merge_perm (key : α → β) (rev : Bool) :
    ∀ (l r : List α), (merge key rev l r).Perm (l ++ r)
  | [], r => by rw [merge_nil_left]; simp
  | x :: l, [] => by rw [merge_nil_right]; simp
  | x :: l, y :: r => by
    rw [merge_cons₂]
    by_cases h : keyLE key rev x y
    · rw [if_pos h]
      exact (merge_perm key rev l (y :: r)).cons x
    · rw [if_neg h]
      exact ((merge_perm key rev (x :: l) r).cons y).trans List.perm_middle.symm
termination_by l r => l.length + r.length

/-- Merging two sorted lists yields a sorted list. -/
theorem merge_pairwise (key : α → β) (rev : Bool) :
    ∀ (l r : List α), l.Pairwise (keyLE key rev) → r.Pairwise (keyLE key rev) →
      (merge key rev l r).Pairwise (keyLE key rev)
  | [], r, _, hr => by rw [merge_nil_left]; exact hr
  | _ :: _, [], hl, _ => by rw [merge_nil_right]; exact hl
  | x :: l, y :: r, hl, hr => by
    have hxl : ∀ z ∈ l, keyLE key rev x z := (List.pairwise_cons.mp hl).1
    have hl' := (List.pairwise_cons.mp hl).2
    have hyr : ∀ z ∈ r, keyLE key rev y z := (List.pairwise_cons.mp hr).1
    have hr' := (List.pairwise_cons.mp hr).2
    rw [merge_cons₂]
    by_cases h : keyLE key rev x y
    · rw [if_pos h]
      refine List.pairwise_cons.mpr
        ⟨?_, merge_pairwise key rev l (y :: r) hl' hr⟩
      intro z hz
      rcases List.mem_append.mp
          ((merge_perm key rev l (y :: r)).mem_iff.mp hz) with hzl | hzyr
      · exact hxl z hzl
      · rcases List.mem_cons.mp hzyr with rfl | hzr
        · exact h
        · exact keyLE_trans key rev h (hyr z hzr)
    · rw [if_neg h]
      have hyx := keyLE_of_not key rev h
      refine List.pairwise_cons.mpr
        ⟨?_, merge_pairwise key rev (x :: l) r hl hr'⟩
      intro z hz
      rcases List.mem_append.mp
          ((merge_perm key rev (x :: l) r).mem_iff.mp hz) with hzxl | hzr
      · rcases List.mem_cons.mp hzxl with rfl | hzl
        · exact hyx
        · exact keyLE_trans key rev hyx (hxl z hzl)
      · exact hyr z hzr
termination_by l r => l.length + r.length

/-- Stability of the merge: with a sorted left input, `merge` preserves every
relation `S` that holds automatically between elements of distinct keys
(ties always go to the left head, so equal-key elements keep their
left-to-right order). -/
theorem merge_pairwise_stable (key : α → β) (rev : Bool)
    (S : α → α → Prop) (hS : ∀ x y, key x ≠ key y → S x y) :
    ∀ (l r : List α), l.Pairwise (keyLE key rev) →
      l.Pairwise S → r.Pairwise S → (∀ x ∈ l, ∀ y ∈ r, S x y) →
      (merge key rev l r).Pairwise S
  | [], r, _, _, hr, _ => by rw [merge_nil_left]; exact hr
  | _ :: _, [], _, hl, _, _ => by rw [merge_nil_right]; exact hl
  | x :: l, y :: r, hsort, hl, hr, hcross => by
    have hxl : ∀ z ∈ l, keyLE key rev x z := (List.pairwise_cons.mp hsort).1
    have hsort' := (List.pairwise_cons.mp hsort).2
    have hxlS : ∀ z ∈ l, S x z := (List.pairwise_cons.mp hl).1
    have hl' := (List.pairwise_cons.mp hl).2
    have hyrS : ∀ z ∈ r, S y z := (List.pairwise_cons.mp hr).1
    have hr' := (List.pairwise_cons.mp hr).2
    rw [merge_cons₂]
    by_cases h : keyLE key rev x y
    · rw [if_pos h]
      refine List.pairwise_cons.mpr
        ⟨?_, merge_pairwise_stable key rev S hS l (y :: r) hsort' hl' hr
          (fun a ha b hb => hcross a (List.mem_cons_of_mem x ha) b hb)⟩
      intro z hz
      rcases List.mem_append.mp
          ((merge_perm key rev l (y :: r)).mem_iff.mp hz) with hzl | hzyr
      · exact hxlS z hzl
      · exact hcross x (List.mem_cons_self x l) z hzyr
    · rw [if_neg h]
      refine List.pairwise_cons.mpr
        ⟨?_, merge_pairwise_stable key rev S hS (x :: l) r hsort hl hr'
          (fun a ha b hb => hcross a ha b (List.mem_cons_of_mem y hb))⟩
      intro z hz
      rcases List.mem_append.mp
          ((merge_perm key rev (x :: l) r).mem_iff.mp hz) with hzxl | hzr
      · rcases List.mem_cons.mp hzxl with rfl | hzl
        · exact hS y z (Ne.symm (key_ne_of_not key rev h))
        · refine hS y z fun hc => ?_
          exact h ((keyLE_congr key rev rfl hc.symm).mp (hxl z hzl))
      · exact hyrS z hzr
termination_by l r => l.length + r.length

/-! ### The merge-sort engine -/

/-- Unfolding equation of `merge_sort`. -/
theorem merge_sort_eq (key : α → β) (rev : Bool) (l : List α) :
    merge_sort key rev l =
      if l.length ≤ 1 then l
      else
        merge key rev
          (merge_sort key rev (l.take (l.length / 2)))
          (merge_sort key rev (l.drop (l.length / 2))) := by
  rw [merge_sort]

/-- Unfolding equation of `merge_sort_with_steps`. -/
theorem merge_sort_with_steps_eq (key : α → β) (rev : Bool) (l : List α) :
    merge_sort_with_steps key rev l =
      if l.length ≤ 1 then (l, 0)
      else
        ((merge key rev
            (merge_sort_with_steps key rev (l.take (l.length / 2))).1
            (merge_sort_with_steps key rev (l.drop (l.length / 2))).1),
          (merge_sort_with_steps key rev (l.take (l.length / 2))).2 +
            (merge_sort_with_steps key rev (l.drop (l.length / 2))).2 +
            ((merge_sort_with_steps key rev (l.take (l.length / 2))).1.length +
              (merge_sort_with_steps key rev (l.drop (l.length / 2))).1.length)) := by
  rw [merge_sort_with_steps]

theorem merge_sort_perm_aux (key : α → β) (rev : Bool) :
    ∀ (n : Nat) (l : List α), l.length ≤ n → (merge_sort key rev l).Perm l := by
  intro n
  induction n with
  | zero =>
    intro l hl
    rw [merge_sort_eq, if_pos (by omega)]
  | succ n ih =>
    intro l hl
    rw [merge_sort_eq]
    by_cases h : l.length ≤ 1
    · rw [if_pos h]
    · rw [if_neg h]
      have ht : (l.take (l.length / 2)).length ≤ n := by
        simp only [List.length_take]; omega
      have hd : (l.drop (l.length / 2)).length ≤ n := by
        simp only [List.length_drop]; omega
      refine ((merge_perm key rev _ _).trans
        ((ih _ ht).append (ih _ hd))).trans ?_
      rw [List.take_append_drop]

/-- `merge_sort` returns a permutation of its input. -/
theorem merge_sort_perm (key : α → β) (rev : Bool) (l : List α) :
    (merge_sort key rev l).Perm l :=
  merge_sort_perm_aux key rev l.length l le_rfl

theorem merge_sort_pairwise_aux (key : α → β) (rev : Bool) :
    ∀ (n : Nat) (l : List α), l.length ≤ n →
      (merge_sort key rev l).Pairwise (keyLE key rev) := by
  intro n
  induction n with
  | zero =>
    intro l hl
    rw [merge_sort_eq, if_pos (by omega)]
    have : l = [] := List.length_eq_zero.mp (by omega)
    subst this
    exact List.Pairwise.nil
  | succ n ih =>
    intro l hl
    rw [merge_sort_eq]
    by_cases h : l.length ≤ 1
    · rw [if_pos h]
      match l, h with
      | [], _ => exact List.Pairwise.nil
      | [x], _ => exact List.pairwise_singleton _ x
    · rw [if_neg h]
      have ht : (l.take (l.length / 2)).length ≤ n := by
        simp only [List.length_take]; omega
      have hd : (l.drop (l.length / 2)).length ≤ n := by
        simp only [List.length_drop]; omega
      exact merge_pairwise key rev _ _ (ih _ ht) (ih _ hd)

/-- `merge_sort` sorts with respect to the ordering policy. -/
theorem merge_sort_pairwise (key : α → β) (rev : Bool) (l : List α) :
    (merge_sort key rev l).Pairwise (keyLE key rev) :=
  merge_sort_pairwise_aux key rev l.length l le_rfl

theorem merge_sort_stable_aux (key : α → β) (rev : Bool)
    (S : α → α → Prop) (hS : ∀ x y, key x ≠ key y → S x y) :
    ∀ (n : Nat) (l : List α), l.length ≤ n → l.Pairwise S →
      (merge_sort key rev l).Pairwise S := by
  intro n
  induction n with
  | zero =>
    intro l hl hpw
    rw [merge_sort_eq, if_pos (by omega)]
    exact hpw
  | succ n ih =>
    intro l hl hpw
    rw [merge_sort_eq]
    by_cases h : l.length ≤ 1
    · rw [if_pos h]
      exact hpw
    · rw [if_neg h]
      have ht : (l.take (l.length / 2)).length ≤ n := by
        simp only [List.length_take]; omega
      have hd : (l.drop (l.length / 2)).length ≤ n := by
        simp only [List.length_drop]; omega
      have hsplit : (l.take (l.length / 2) ++ l.drop (l.length / 2)).Pairwise S := by
        rw [List.take_append_drop]; exact hpw
      obtain ⟨hpt, hpd, hcr⟩ := List.pairwise_append.mp hsplit
      refine merge_pairwise_stable key rev S hS _ _
        (merge_sort_pairwise key rev _) (ih _ ht hpt) (ih _ hd hpd) ?_
      intro a ha b hb
      exact hcr a ((merge_sort_perm key rev _).mem_iff.mp ha)
        b ((merge_sort_perm key rev _).mem_iff.mp hb)

/-- `merge_sort` preserves every relation that holds automatically between
elements of distinct keys: the stability workhorse for the merge engine. -/
theorem merge_sort_stable (key : α → β) (rev : Bool)
    (S : α → α → Prop) (hS : ∀ x y, key x ≠ key y → S x y)
    (l : List α) (hpw : l.Pairwise S) :
    (merge_sort key rev l).Pairwise S :=
  merge_sort_stable_aux key rev S hS l.length l le_rfl hpw

/-! ### Step counting for the merge engine -/

theorem merge_sort_with_steps_fst_aux (key : α → β) (rev : Bool) :
    ∀ (n : Nat) (l : List α), l.length ≤ n →
      (merge_sort_with_steps key rev l).1 = merge_sort key rev l := by
  intro n
  induction n with
  | zero =>
    intro l hl
    rw [merge_sort_with_steps_eq, merge_sort_eq,
      if_pos (by omega : l.length ≤ 1), if_pos (by omega : l.length ≤ 1)]
  | succ n ih =>
    intro l hl
    rw [merge_sort_with_steps_eq, merge_sort_eq]
    by_cases h : l.length ≤ 1
    · rw [if_pos h, if_pos h]
    · rw [if_neg h, if_neg h]
      have ht : (l.take (l.length / 2)).length ≤ n := by
        simp only [List.length_take]; omega
      have hd : (l.drop (l.length / 2)).length ≤ n := by
        simp only [List.length_drop]; omega
      simp only [ih _ ht, ih _ hd]

/-- The traced merge sort returns the same sorted list as the silent one. -/
theorem merge_sort_with_steps_fst (key : α → β) (rev : Bool) (l : List α) :
    (merge_sort_with_steps key rev l).1 = merge_sort key rev l :=
  merge_sort_with_steps_fst_aux key rev l.length l le_rfl

theorem merge_sort_with_steps_snd_aux (key : α → β) (rev : Bool) :
    ∀ (n : Nat) (l : List α), l.length ≤ n →
      (merge_sort_with_steps key rev l).2 = msOps l.length := by
  intro n
  induction n with
  | zero =>
    intro l hl
    rw [merge_sort_with_steps_eq, if_pos (by omega : l.length ≤ 1), msOps,
      if_pos (by omega : l.length ≤ 1)]
  | succ n ih =>
    intro l hl
    rw [merge_sort_with_steps_eq]
    by_cases h : l.length ≤ 1
    · rw [if_pos h, msOps, if_pos h]
    · rw [if_neg h]
      have ht : (l.take (l.length / 2)).length ≤ n := by
        simp only [List.length_take]; omega
      have hd : (l.drop (l.length / 2)).length ≤ n := by
        simp only [List.length_drop]; omega
      have hlt : (merge_sort_with_steps key rev (l.take (l.length / 2))).1.length
          = l.length / 2 := by
        rw [merge_sort_with_steps_fst key rev,
          (merge_sort_perm key rev _).length_eq, List.length_take]
        omega
      have hld : (merge_sort_with_steps key rev (l.drop (l.length / 2))).1.length
          = l.length - l.length / 2 := by
        rw [merge_sort_with_steps_fst key rev,
          (merge_sort_perm key rev _).length_eq, List.length_drop]
      have hmin : min (l.length / 2) l.length = l.length / 2 := by omega
      simp only [ih _ ht, ih _ hd, hlt, hld, List.length_take,
        List.length_drop, hmin]
      conv_rhs => rw [msOps.eq_def]
      simp only [if_neg h]
      omega

/-- The operation count of the traced merge sort depends on the input length
alone, through the recurrence `msOps`. -/
theorem merge_sort_with_steps_snd (key : α → β) (rev : Bool) (l : List α) :
    (merge_sort_with_steps key rev l).2 = msOps l.length :=
  merge_sort_with_steps_snd_aux key rev l.length l le_rfl

/-! ### Arithmetic of the merge-step recurrence -/

theorem msOps_le_aux :
    ∀ (N n : Nat), n ≤ N → msOps n ≤ n * Nat.clog 2 n := by
  intro N
  induction N with
  | zero =>
    intro n hn
    have : n = 0 := by omega
    subst this
    rw [msOps.eq_def]
    simp
  | succ N ih =>
    intro n hn
    by_cases h : n ≤ 1
    · rw [msOps.eq_def, if_pos h]
      exact Nat.zero_le _
    · rw [msOps.eq_def, if_neg h]
      have h2 : 2 ≤ n := by omega
      have hclog : Nat.clog 2 n = Nat.clog 2 ((n + 1) / 2) + 1 := by
        have := @Nat.clog_of_two_le 2 n (by norm_num) h2
        simpa using this
      set c := Nat.clog 2 ((n + 1) / 2) with hc
      have hb1 : msOps (n / 2) ≤ (n / 2) * c := by
        calc msOps (n / 2) ≤ (n / 2) * Nat.clog 2 (n / 2) :=
              ih (n / 2) (by omega)
          _ ≤ (n / 2) * c :=
              Nat.mul_le_mul_left _ (Nat.clog_mono_right 2 (by omega))
      have heq : n - n / 2 = (n + 1) / 2 := by omega
      have hb2 : msOps (n - n / 2) ≤ ((n + 1) / 2) * c := by
        rw [heq]
        exact ih _ (by omega)
      calc msOps (n / 2) + msOps (n - n / 2) + n
          ≤ (n / 2) * c + ((n + 1) / 2) * c + n :=
            Nat.add_le_add (Nat.add_le_add hb1 hb2) le_rfl
        _ = (n / 2 + (n + 1) / 2) * c + n := by ring
        _ = n * c + n := by
            have hs : n / 2 + (n + 1) / 2 = n := by omega
            rw [hs]
        _ = n * (c + 1) := by ring
        _ = n * Nat.clog 2 n := by rw [hclog]

/-- The merge-step recurrence is bounded by `n · ⌈log₂ n⌉`. -/
theorem msOps_le (n : Nat) : msOps n ≤ n * Nat.clog 2 n :=
  msOps_le_aux n n le_rfl

/-- For a power of two the recurrence evaluates exactly to `n · log₂ n`. -/
theorem msOps_two_pow : ∀ k : Nat, msOps (2 ^ k) = k * 2 ^ k := by
  intro k
  induction k with
  | zero =>
    rw [pow_zero, msOps.eq_def]
    simp
  | succ k ih =>
    have hm : 0 < 2 ^ k := Nat.pos_pow_of_pos k (by norm_num)
    have hpow : 2 ^ (k + 1) = 2 * 2 ^ k := by rw [pow_succ]; ring
    have h2 : ¬ (2 ^ (k + 1) ≤ 1) := by omega
    rw [msOps.eq_def, if_neg h2]
    have hhalf : 2 ^ (k + 1) / 2 = 2 ^ k := by omega
    rw [hhalf]
    have hsub : 2 ^ (k + 1) - 2 ^ k = 2 ^ k := by omega
    rw [hsub, ih, hpow]
    ring

/-! ### Index tagging -/

theorem mem_tag_le : ∀ (l : List α) (n : Nat) (p : Nat × α),
    p ∈ tag n l → n ≤ p.1
  | [], n, p, h => by simp [tag] at h
  | x :: xs, n, p, h => by
    rcases List.mem_cons.mp (by simpa [tag] using h) with rfl | h'
    · exact le_rfl
    · exact Nat.le_of_succ_le (mem_tag_le xs (n + 1) p h')

/-- The indices attached by `tag` are strictly increasing along the list. -/
theorem tag_pairwise : ∀ (l : List α) (n : Nat),
    (tag n l).Pairwise (fun p q => p.1 < q.1)
  | [], n => by simp [tag]
  | x :: xs, n => by
    simp only [tag]
    refine List.pairwise_cons.mpr ⟨?_, tag_pairwise xs (n + 1)⟩
    intro q hq
    exact lt_of_lt_of_le (Nat.lt_succ_self n) (mem_tag_le xs (n + 1) q hq)

/-! ## The claims -/

/-- C1: for every input list `S` and every direction `d`, the lists returned
by `bubble_sort(S, d)` and `merge_sort(S, d)` are each a permutation of `S`:
same multiset of elements and same length. -/
theorem claim_sorts_permutation {γ : Type} [LinearOrder γ]
    (rev : Bool) (l : List γ) :
    (bubble_sort id rev l).Perm l ∧ (bubble_sort id rev l).length = l.length ∧
      (merge_sort id rev l).Perm l ∧
      (merge_sort id rev l).length = l.length :=
  ⟨bubbleLoop_perm id rev l.length l,
    (bubbleLoop_perm id rev l.length l).length_eq,
    merge_sort_perm id rev l, (merge_sort_perm id rev l).length_eq⟩

/-- The sorted output of the exchange engine, in `Pairwise` form. -/
theorem bubble_sort_pairwise (key : α → β) (rev : Bool) (l : List α) :
    (bubble_sort key rev l).Pairwise (keyLE key rev) := by
  have h := bubbleLoop_sorted key rev l.length l [] rfl
    (by intro x _ y hy; simp at hy) List.Pairwise.nil
  rw [List.append_nil] at h
  exact h

/-- C2: every adjacent pair of the result of either engine satisfies the
ordering policy: `R[i] ≤ R[i+1]` ascending (`reverse = False`),
`R[i] ≥ R[i+1]` descending (`reverse = True`). -/
theorem claim_sorts_ordering {γ : Type} [LinearOrder γ] (l : List γ) :
    (bubble_sort id false l).Chain' (fun a b => a ≤ b) ∧
      (bubble_sort id true l).Chain' (fun a b => a ≥ b) ∧
      (merge_sort id false l).Chain' (fun a b => a ≤ b) ∧
      (merge_sort id true l).Chain' (fun a b => a ≥ b) := by
  refine ⟨(bubble_sort_pairwise id false l).chain'.imp ?_,
    (bubble_sort_pairwise id true l).chain'.imp ?_,
    (merge_sort_pairwise id false l).chain'.imp ?_,
    (merge_sort_pairwise id true l).chain'.imp ?_⟩ <;>
    exact fun a b h => h

/-- C3: both engines are stable in both directions: tagging every element
with its original index, elements with equal values keep strictly increasing
indices in the output. -/
theorem claim_sorts_stability {γ : Type} [LinearOrder γ]
    (rev : Bool) (l : List γ) :
    (bubble_sort Prod.snd rev (tag 0 l)).Pairwise
        (fun p q => p.2 = q.2 → p.1 < q.1) ∧
      (merge_sort Prod.snd rev (tag 0 l)).Pairwise
        (fun p q => p.2 = q.2 → p.1 < q.1) := by
  have hS : ∀ p q : Nat × γ, p.2 ≠ q.2 → (p.2 = q.2 → p.1 < q.1) :=
    fun _ _ hne hc => absurd hc hne
  have hpw : (tag 0 l).Pairwise (fun p q : Nat × γ => p.2 = q.2 → p.1 < q.1) := by
    refine List.Pairwise.imp ?_ (tag_pairwise l 0)
    intro p q h _
    exact h
  exact ⟨bubbleLoop_pairwise Prod.snd rev _ hS (tag 0 l).length (tag 0 l) hpw,
    merge_sort_stable Prod.snd rev _ hS (tag 0 l) hpw⟩

/-- C4: cross-algorithm agreement: for every list and direction the two
engines return element-for-element identical lists. -/
theorem claim_sorts_agree {γ : Type} [LinearOrder γ]
    (rev : Bool) (l : List γ) :
    bubble_sort id rev l = merge_sort id rev l := by
  haveI ha : IsAntisymm γ (keyLE id rev) := by
    constructor
    intro a b h₁ h₂
    cases rev
    · exact le_antisymm h₁ h₂
    · exact le_antisymm h₂ h₁
  exact @List.eq_of_perm_of_sorted γ (keyLE id rev) ha _ _
    ((bubbleLoop_perm id rev l.length l).trans (merge_sort_perm id rev l).symm)
    (bubble_sort_pairwise id rev l) (merge_sort_pairwise id rev l)

/-- C5: tracing does not alter the result: both `_with_steps` variants
return the same sorted list as their silent counterparts. -/
theorem claim_trace_preserves_result {γ : Type} [LinearOrder γ]
    (rev : Bool) (l : List γ) :
    (bubble_sort_with_steps id rev l).1 = bubble_sort id rev l ∧
      (merge_sort_with_steps id rev l).1 = merge_sort id rev l :=
  ⟨bubbleLoopS_fst id rev l.length l, merge_sort_with_steps_fst id rev l⟩

/-- C7: on an input already sorted ascending, the traced exchange sort makes
exactly one pass of `n − 1` comparisons (truncated subtraction: `0` for the
empty list), performs zero swaps, and returns the input copy with that
count. -/
theorem claim_bubble_steps_sorted {γ : Type} [LinearOrder γ]
    (l : List γ) (h : l.Chain' (fun a b => a ≤ b)) :
    bubble_sort_with_steps id false l = (l, l.length - 1) :=
  bubble_sort_with_steps_sorted id false l
    (h.imp fun a b hab => (keyLE_false id a b).mpr hab)

/-- Witness for C7 at the concrete sorted input `[1, 2, 3]`. -/
theorem claim_bubble_steps_sorted_witness :
    ([1, 2, 3] : List ℕ).Chain' (fun a b => a ≤ b) ∧
      bubble_sort_with_steps id false ([1, 2, 3] : List ℕ) = ([1, 2, 3], 2) :=
  ⟨by norm_num [List.chain'_cons, List.chain'_singleton],
    claim_bubble_steps_sorted [1, 2, 3]
      (by norm_num [List.chain'_cons, List.chain'_singleton])⟩

/-- C8, counterexample: `n = 2` is a power of two, and the traced merge sort
on `[0, 1]` counts `2` operations, not `n − 1 = 1`. -/
theorem claim_merge_steps_counterexample :
    (merge_sort_with_steps id false ([0, 1] : List ℕ)).2 = 2 ∧
      (2 : ℕ) ≠ 2 - 1 := by
  have hlen : ([0, 1] : List ℕ).length = 2 := rfl
  refine ⟨?_, by decide⟩
  rw [merge_sort_with_steps_snd, hlen]
  simp [msOps.eq_def]

/-- C8 (amended): the total operation count of the traced merge sort is at
most `n · ⌈log₂ n⌉`, and equals exactly `k · 2^k = n · log₂ n` when
`n = 2^k` is a power of two. -/
theorem claim_merge_steps_bound {γ : Type} [LinearOrder γ]
    (rev : Bool) (l : List γ) :
    (merge_sort_with_steps id rev l).2 ≤ l.length * Nat.clog 2 l.length ∧
      ∀ k : ℕ, l.length = 2 ^ k →
        (merge_sort_with_steps id rev l).2 = k * 2 ^ k := by
  constructor
  · rw [merge_sort_with_steps_snd]
    exact msOps_le _
  · intro k hk
    rw [merge_sort_with_steps_snd, hk, msOps_two_pow]

/-- Witness for C8 (amended) at `[5, 2]`, a power-of-two length with
`k = 1`. -/
theorem claim_merge_steps_bound_witness :
    (merge_sort_with_steps id false ([5, 2] : List ℕ)).2 ≤
        ([5, 2] : List ℕ).length * Nat.clog 2 ([5, 2] : List ℕ).length ∧
      (merge_sort_with_steps id false ([5, 2] : List ℕ)).2 = 1 * 2 ^ 1 :=
  ⟨(claim_merge_steps_bound false [5, 2]).1,
    (claim_merge_steps_bound false [5, 2]).2 1 (by decide)⟩

/-- C9: the recursion of `merge_sort` is well-founded: for every list of
length at least two, the split at `⌊n/2⌋` produces two strictly shorter
halves whose lengths sum to `n`, and `merge_sort` recurses exactly on that
split.  (Totality of all four engines holds by construction: each is a total
function in this development.) -/
theorem claim_merge_sort_split {γ : Type} [LinearOrder γ]
    (rev : Bool) (l : List γ) (h : 2 ≤ l.length) :
    (l.take (l.length / 2)).length < l.length ∧
      (l.drop (l.length / 2)).length < l.length ∧
      (l.take (l.length / 2)).length + (l.drop (l.length / 2)).length
        = l.length ∧
      merge_sort id rev l =
        merge id rev (merge_sort id rev (l.take (l.length / 2)))
          (merge_sort id rev (l.drop (l.length / 2))) := by
  refine ⟨?_, ?_, ?_, ?_⟩
  · simp only [List.length_take]; omega
  · simp only [List.length_drop]; omega
  · simp only [List.length_take, List.length_drop]; omega
  · rw [merge_sort_eq, if_neg (by omega)]

/-- Witness for C9 at the concrete input `[5, 2, 8]`. -/
theorem claim_merge_sort_split_witness :
    (([5, 2, 8] : List ℕ).take (([5, 2, 8] : List ℕ).length / 2)).length <
        ([5, 2, 8] : List ℕ).length ∧
      (([5, 2, 8] : List ℕ).drop (([5, 2, 8] : List ℕ).length / 2)).length <
        ([5, 2, 8] : List ℕ).length ∧
      (([5, 2, 8] : List ℕ).take (([5, 2, 8] : List ℕ).length / 2)).length +
          (([5, 2, 8] : List ℕ).drop (([5, 2, 8] : List ℕ).length / 2)).length
        = ([5, 2, 8] : List ℕ).length ∧
      merge_sort id false ([5, 2, 8] : List ℕ) =
        merge id false
          (merge_sort id false
            (([5, 2, 8] : List ℕ).take (([5, 2, 8] : List ℕ).length / 2)))
          (merge_sort id false
            (([5, 2, 8] : List ℕ).drop (([5, 2, 8] : List ℕ).length / 2))) :=
  claim_merge_sort_split false [5, 2, 8] (by decide)

/-- C10: for arbitrary (not necessarily sorted) inputs, `merge` returns a
list of length `len(left) + len(right)` whose multiset of elements is that
of `left ++ right`. -/
theorem claim_merge_multiset {γ : Type} [LinearOrder γ]
    (rev : Bool) (l r : List γ) :
    (merge id rev l r).Perm (l ++ r) ∧
      (merge id rev l r).length = l.length + r.length := by
  refine ⟨merge_perm id rev l r, ?_⟩
  rw [(merge_perm id rev l r).length_eq, List.length_append]

end SortSpec
